import Mathlib

/-!
Verification of the markdown diff-comment generator (`utils.py`).

The development shallowly embeds the pipeline of `get_diffs`:
`clean_markdown` (marker stripping and link replacement), `tokenize_lines`
(line splitting, blank-line filtering, whitespace tokenization), the token
aligner (a faithful model of CPython `difflib.SequenceMatcher` with
`isjunk = None` and the default `autojunk = True`: `b2j` construction with
the popular-element purge, the `find_longest_match` dynamic program with its
extension loops, the divide-and-conquer `get_matching_blocks` with adjacent
collapsing, and `get_opcodes`), the adjacent-edit merge loop, and the
comment renderer with `re.escape`.

Modelling conventions: Python strings are `String` / `List Char`; whitespace
and line-break classification covers the ASCII set plus the common Unicode
line separators handled by `str.splitlines`; machine integers are `Nat`
(Python level indices are always non-negative here), with `i + 1 - k`
written in place of Python `i - k + 1` so that `Nat` truncation agrees with
the non-negative Python values.  The recursion of `get_matching_blocks`
(a worklist in CPython, followed by a sort; the in-order recursion below
yields the same sorted list because submatches stay inside their disjoint
index regions) and of the link-replacement scanner are given fuel that is
always sufficient for the actual calls.
-/

/-- Characters removed by the first substitution of `clean_markdown`:
the regex class matching any of asterisk, underscore, tilde, hash,
greater-than, backtick, hyphen. -/
def isSpecialChar (c : Char) : Bool :=
  c = '*' ∨ c = '_' ∨ c = '~' ∨ c = '#' ∨ c = '>' ∨ c = '`' ∨ c = '-'

/-- First step of `clean_markdown`: remove every special character. -/
def removeSpecial (cs : List Char) : List Char :=
  cs.filter (fun c => ¬ isSpecialChar c)

/-- Attempt to match the link regex at the current position.  At a
position starting with a left bracket, the pattern takes a non-empty
maximal run of non-right-bracket characters, a right bracket, a left
parenthesis, a non-empty maximal run of non-right-parenthesis characters
and a right parenthesis; this is exactly the (backtracking-free)
behaviour of the regex on these two negated character classes.
Returns the link text together with the input remaining after the match. -/
def tryLink : List Char → Option (List Char × List Char)
  | c :: rest =>
    if c = '[' ∧ rest.takeWhile (fun x => x ≠ ']') ≠ [] then
      match rest.drop (rest.takeWhile (fun x => x ≠ ']')).length with
      | d1 :: d2 :: rest2 =>
        if d1 = ']' ∧ d2 = '(' ∧ rest2.takeWhile (fun x => x ≠ ')') ≠ [] then
          match rest2.drop (rest2.takeWhile (fun x => x ≠ ')')).length with
          | e1 :: rest3 =>
            if e1 = ')' then some (rest.takeWhile (fun x => x ≠ ']'), rest3) else none
          | [] => none
        else none
      | _ => none
    else none
  | [] => none

/-- Left-to-right, non-overlapping replacement of markdown links by their
text, as performed by the second substitution of `clean_markdown`.  The
fuel argument bounds the number of characters consumed and the top-level
wrapper passes the length of the input, which always suffices because
every step consumes at least one character. -/
def linkReplaceAux : Nat → List Char → List Char
  | 0, cs => cs
  | _ + 1, [] => []
  | fuel + 1, c :: rest =>
    match tryLink (c :: rest) with
    | some (text, rest3) => text ++ linkReplaceAux fuel rest3
    | none => c :: linkReplaceAux fuel rest

/-- Replace every markdown link `[text](url)` by `text`. -/
def linkReplace (cs : List Char) : List Char :=
  linkReplaceAux cs.length cs

/-- The text normalizer `clean_markdown`: strip special characters, then
replace links by their text. -/
def clean_markdown (md : String) : String :=
  ⟨linkReplace (removeSpecial md.data)⟩

/-- Whitespace for the purposes of `str.strip` and `str.split`. -/
def isPySpace (c : Char) : Bool :=
  c = ' ' ∨ c = '\t' ∨ c = '\n' ∨ c = '\r' ∨ c = '\x0b' ∨ c = '\x0c' ∨
  c = '\x1c' ∨ c = '\x1d' ∨ c = '\x1e' ∨ c = '\x1f' ∨ c = '\x85' ∨ c = '\xa0'

/-- The `str.strip()` of a character list: drop whitespace from both ends. -/
def pyStrip (cs : List Char) : List Char :=
  ((cs.dropWhile isPySpace).reverse.dropWhile isPySpace).reverse

/-- Line breaks recognised by `str.splitlines`. -/
def isLineBreak (c : Char) : Bool :=
  c = '\n' ∨ c = '\r' ∨ c = '\x0b' ∨ c = '\x0c' ∨ c = '\x1c' ∨ c = '\x1d' ∨
  c = '\x1e' ∨ c = '\x85' ∨ c = '\u2028' ∨ c = '\u2029'

/-- Worker for `str.splitlines`: a carriage return followed by a line feed
counts as a single break, a trailing break produces no empty final line. -/
def splitlinesAux : List Char → List Char → List (List Char)
  | [], acc => if acc = [] then [] else [acc.reverse]
  | '\r' :: '\n' :: rest, acc => acc.reverse :: splitlinesAux rest []
  | c :: rest, acc =>
    if isLineBreak c then acc.reverse :: splitlinesAux rest []
    else splitlinesAux rest (c :: acc)

/-- The `str.splitlines()` of a document. -/
def pySplitlines (cs : List Char) : List (List Char) :=
  splitlinesAux cs []

/-- Worker for `str.split()` with no separator: split on whitespace runs,
never emitting empty words. -/
def pySplitAux : List Char → List Char → List (List Char)
  | [], acc => if acc = [] then [] else [acc.reverse]
  | c :: rest, acc =>
    if isPySpace c then
      if acc = [] then pySplitAux rest []
      else acc.reverse :: pySplitAux rest []
    else pySplitAux rest (c :: acc)

/-- The `str.split()` of a line, producing its tokens. -/
def pySplit (cs : List Char) : List String :=
  (pySplitAux cs []).map (fun t => ⟨t⟩)

/-- The tokenizer `tokenize_lines`: split into lines, keep the lines whose
strip is non-empty, and map each to the token list of its cleaned, stripped
text. -/
def tokenize_lines (md : String) : List (List String) :=
  ((pySplitlines md.data).filter (fun l => pyStrip l ≠ [])).map
    (fun l => pySplit (pyStrip (linkReplace (removeSpecial l))))

/-- Characters escaped by `re.escape` (CPython 3.7+ special-character map). -/
def reSpecial (c : Char) : Bool :=
  c = '(' ∨ c = ')' ∨ c = '[' ∨ c = ']' ∨ c = '\x7b' ∨ c = '\x7d' ∨
  c = '?' ∨ c = '*' ∨ c = '+' ∨ c = '-' ∨ c = '|' ∨ c = '^' ∨ c = '$' ∨
  c = '\\' ∨ c = '.' ∨ c = '&' ∨ c = '~' ∨ c = '#' ∨ c = ' ' ∨ c = '\t' ∨
  c = '\n' ∨ c = '\r' ∨ c = '\x0b' ∨ c = '\x0c'

/-- The `re.escape` of a string: put a backslash before every special
character. -/
def reEscape (s : String) : String :=
  ⟨s.data.foldr (fun c acc => if reSpecial c then '\\' :: c :: acc else c :: acc) []⟩

/-- Remove one level of backslash escaping, the inverse of `reEscape`. -/
def unescapeAux : List Char → List Char
  | [] => []
  | '\\' :: c :: rest => c :: unescapeAux rest
  | c :: rest => c :: unescapeAux rest

/-- Undo `reEscape`. -/
def unescape (s : String) : String :=
  ⟨unescapeAux s.data⟩

/-- The output record of `get_diffs`. -/
structure Comment where
  pattern : String
  comment : String
deriving DecidableEq

/-- One retained opcode of the aligner together with its token slices, the
dictionary built in the first loop of `get_diffs`. -/
structure EditOp where
  tag : String
  i1 : Nat
  i2 : Nat
  j1 : Nat
  j2 : Nat
  old : List String
  new : List String
deriving DecidableEq

/-- The Python slice `l[a:b]` for non-negative bounds. -/
def pySlice (l : List String) (a b : Nat) : List String :=
  (l.drop a).take (b - a)

/-- All positions of token `s` in `b`, in increasing order: the entry of
the `b2j` dictionary of `SequenceMatcher` before the junk purge. -/
def tokIdxs (b : List String) (s : String) : List Nat :=
  (List.range b.length).filter (fun j => b.getD j "" = s)

/-- The autojunk popularity test of `SequenceMatcher.__chain_b`: with at
least 200 elements, an element occurring more than `len // 100 + 1` times
is purged from `b2j`. -/
def popularTok (b : List String) (s : String) : Bool :=
  if 200 ≤ b.length ∧ b.length / 100 + 1 < (tokIdxs b s).length then true else false

/-- The `b2j` mapping of `SequenceMatcher` with `isjunk = None` and
`autojunk = True`: positions of `s` in `b`, or nothing when `s` is popular. -/
def b2jOf (b : List String) (s : String) : List Nat :=
  if popularTok b s then [] else tokIdxs b s

/-- Inner loop of `find_longest_match` over the candidate `j` positions of
row `i`: indices below `blo` are skipped, the first index at or beyond
`bhi` stops the scan, and each remaining cell stores
`k = j2len.get(j - 1, 0) + 1` (with the old row `j2len`) into the new row
and takes the best on strict improvement.  The state is the new row
together with `(besti, bestj, bestsize)`; `i + 1 - k` is the `Nat` form of
Python `i - k + 1`. -/
def innerLoop (j2len : Nat → Nat) (blo bhi i : Nat) :
    List Nat → (Nat → Nat) × (Nat × Nat × Nat) → (Nat → Nat) × (Nat × Nat × Nat)
  | [], st => st
  | j :: rest, st =>
    if j < blo then innerLoop j2len blo bhi i rest st
    else if bhi ≤ j then st
    else
      let k := (if j = 0 then 0 else j2len (j - 1)) + 1
      innerLoop j2len blo bhi i rest
        (fun x => if x = j then k else st.1 x,
         if st.2.2.2 < k then (i + 1 - k, j + 1 - k, k) else st.2)

/-- Outer loop of the `find_longest_match` dynamic program over the rows
`alo, …, ahi - 1`; each row starts a fresh `newj2len` and the previous row
is consulted through the first state component. -/
def flmLoop (a : List String) (b2j : String → List Nat) (blo bhi : Nat) :
    List Nat → (Nat → Nat) × (Nat × Nat × Nat) → Nat × Nat × Nat
  | [], st => st.2
  | i :: rest, st =>
    flmLoop a b2j blo bhi rest
      (innerLoop st.1 blo bhi i (b2j (a.getD i "")) (fun _ => 0, st.2))

/-- Leftward extension loop of `find_longest_match`.  With `isjunk = None`
the junk set is empty, so the non-junk condition of the first Python loop
is always true and the junk-only loops never run; what remains is the
extension by equal elements.  Each iteration lowers `besti` by one while
the guard keeps `alo < besti`, so the fuel `p.1` passed by `extLeft` never
runs out before the guard fails. -/
def extLeftAux (a b : List String) (alo blo : Nat) :
    Nat → Nat × Nat × Nat → Nat × Nat × Nat
  | 0, p => p
  | fuel + 1, p =>
    if alo < p.1 ∧ blo < p.2.1 ∧ a.getD (p.1 - 1) "" = b.getD (p.2.1 - 1) "" then
      extLeftAux a b alo blo fuel (p.1 - 1, p.2.1 - 1, p.2.2 + 1)
    else p

/-- The leftward extension loop with its sufficient fuel. -/
def extLeft (a b : List String) (alo blo : Nat) (p : Nat × Nat × Nat) :
    Nat × Nat × Nat :=
  extLeftAux a b alo blo p.1 p

/-- Rightward extension loop of `find_longest_match` (see `extLeft`).  Each
iteration raises `bestsize` by one while the guard keeps
`besti + bestsize < ahi`, so the fuel `ahi - p.2.2` passed by `extRight`
never runs out before the guard fails. -/
def extRightAux (a b : List String) (ahi bhi : Nat) :
    Nat → Nat × Nat × Nat → Nat × Nat × Nat
  | 0, p => p
  | fuel + 1, p =>
    if p.1 + p.2.2 < ahi ∧ p.2.1 + p.2.2 < bhi ∧
        a.getD (p.1 + p.2.2) "" = b.getD (p.2.1 + p.2.2) "" then
      extRightAux a b ahi bhi fuel (p.1, p.2.1, p.2.2 + 1)
    else p

/-- The rightward extension loop with its sufficient fuel. -/
def extRight (a b : List String) (ahi bhi : Nat) (p : Nat × Nat × Nat) :
    Nat × Nat × Nat :=
  extRightAux a b ahi bhi (ahi - p.2.2) p

/-- `SequenceMatcher.find_longest_match` on the region
`[alo, ahi) × [blo, bhi)`: the dynamic program followed by the two
extension loops. -/
def find_longest_match (a b : List String) (b2j : String → List Nat)
    (alo ahi blo bhi : Nat) : Nat × Nat × Nat :=
  extRight a b ahi bhi
    (extLeft a b alo blo
      (flmLoop a b2j blo bhi (List.range' alo (ahi - alo)) (fun _ => 0, (alo, blo, 0))))

/-- The recursive part of `get_matching_blocks`: find the longest match of
the region, then recurse on the two remaining corner regions.  CPython
drives this with a worklist and sorts the collected matches; since all
matches of a subregion stay inside that region, the in-order recursion
below produces exactly the sorted list.  The fuel bounds the recursion
depth; the top-level call passes `a.length + 1`, which suffices because
each subregion is strictly narrower in the first sequence. -/
def matching_blocks_aux (a b : List String) (b2j : String → List Nat) :
    Nat → Nat → Nat → Nat → Nat → List (Nat × Nat × Nat)
  | 0, _, _, _, _ => []
  | fuel + 1, alo, ahi, blo, bhi =>
    let m := find_longest_match a b b2j alo ahi blo bhi
    if m.2.2 = 0 then []
    else
      (if alo < m.1 ∧ blo < m.2.1 then
        matching_blocks_aux a b b2j fuel alo m.1 blo m.2.1
      else []) ++
      m ::
      (if m.1 + m.2.2 < ahi ∧ m.2.1 + m.2.2 < bhi then
        matching_blocks_aux a b b2j fuel (m.1 + m.2.2) ahi (m.2.1 + m.2.2) bhi
      else [])

/-- The second phase of `get_matching_blocks`: collapse adjacent matches,
starting from the state `(0, 0, 0)`, emitting a pending match only when it
has positive size. -/
def collapseAux : Nat × Nat × Nat → List (Nat × Nat × Nat) → List (Nat × Nat × Nat)
  | s, [] => if s.2.2 ≠ 0 then [s] else []
  | s, m :: rest =>
    if s.1 + s.2.2 = m.1 ∧ s.2.1 + s.2.2 = m.2.1 then
      collapseAux (s.1, s.2.1, s.2.2 + m.2.2) rest
    else
      (if s.2.2 ≠ 0 then [s] else []) ++ collapseAux m rest

/-- `SequenceMatcher.get_matching_blocks`: recursive matching, adjacent
collapse, and the terminating sentinel `(len(a), len(b), 0)`. -/
def get_matching_blocks (a b : List String) : List (Nat × Nat × Nat) :=
  collapseAux (0, 0, 0)
      (matching_blocks_aux a b (b2jOf b) (a.length + 1) 0 a.length 0 b.length) ++
    [(a.length, b.length, 0)]

/-- Cursor loop of `get_opcodes`: a gap before a matching block is tagged
`replace`, `delete` or `insert`, and a block of positive size yields an
`equal` opcode. -/
def opcodesAux : Nat → Nat → List (Nat × Nat × Nat) →
    List (String × Nat × Nat × Nat × Nat)
  | _, _, [] => []
  | i, j, m :: rest =>
    let gap :=
      if i < m.1 ∧ j < m.2.1 then [("replace", i, m.1, j, m.2.1)]
      else if i < m.1 then [("delete", i, m.1, j, m.2.1)]
      else if j < m.2.1 then [("insert", i, m.1, j, m.2.1)]
      else []
    gap ++
      (if m.2.2 ≠ 0 then [("equal", m.1, m.1 + m.2.2, m.2.1, m.2.1 + m.2.2)] else []) ++
      opcodesAux (m.1 + m.2.2) (m.2.1 + m.2.2) rest

/-- `SequenceMatcher.get_opcodes` for the two token lists. -/
def get_opcodes (a b : List String) : List (String × Nat × Nat × Nat × Nat) :=
  opcodesAux 0 0 (get_matching_blocks a b)

/-- The first loop of `get_diffs` on one line pair: keep the non-`equal`
opcodes, recording their bounds and literal token slices. -/
def editOpsOf (line1 line2 : List String) : List EditOp :=
  (get_opcodes line1 line2).filterMap (fun op =>
    if op.1 = "equal" then none
    else some ⟨op.1, op.2.1, op.2.2.1, op.2.2.2.1, op.2.2.2.2,
      pySlice line1 op.2.1 op.2.2.1, pySlice line2 op.2.2.2.1 op.2.2.2.2⟩)

/-- The merge loop of `get_diffs`: an op within one token of the current
block on both sides is merged into it (bounds take the maximum, the token
lists are extended with the slices from `block.i1 + 1` and `block.j1 + 1`
up to the new op, exactly as in the source); otherwise the block is closed
and the op starts a new block. -/
def mergeLoop (line1 line2 : List String) : EditOp → List EditOp → List EditOp
  | block, [] => [block]
  | block, m :: rest =>
    if m.i1 ≤ block.i2 + 1 ∧ m.j1 ≤ block.j2 + 1 then
      mergeLoop line1 line2
        { block with
          i2 := max block.i2 m.i2,
          j2 := max block.j2 m.j2,
          old := block.old ++ pySlice line1 (block.i1 + 1) m.i2,
          new := block.new ++ pySlice line2 (block.j1 + 1) m.j2 } rest
    else block :: mergeLoop line1 line2 m rest

/-- The merged blocks of one line pair (empty when the line pair has no
retained edit op, in which case `get_diffs` emits nothing for the line). -/
def mergedBlocksOf (line1 line2 : List String) : List EditOp :=
  match editOpsOf line1 line2 with
  | [] => []
  | b :: rest => mergeLoop line1 line2 b rest

/-- The comment renderer for one merged block: one token of context on each
side when available, the anchor pattern built from left context, old tokens
and right context and then escaped, and the suggestion text. -/
def renderBlock (line1 : List String) (b : EditOp) : Comment :=
  let left_context := if 0 < b.i1 then line1.getD (b.i1 - 1) "" else ""
  let right_context := if b.i2 < line1.length then line1.getD b.i2 "" else ""
  let pattern_line :=
    (if left_context ≠ "" then left_context ++ " " else "") ++
      String.intercalate " " b.old ++
      (if right_context ≠ "" then " " ++ right_context else "")
  { pattern := reEscape pattern_line,
    comment := "Consider changing \x27" ++ String.intercalate " " b.old ++
      "\x27 to \x27" ++ String.intercalate " " b.new ++ "\x27" }

/-- All comments of one line pair, in block order. -/
def lineComments (line1 line2 : List String) : List Comment :=
  (mergedBlocksOf line1 line2).map (renderBlock line1)

/-- Comments of a list of line pairs, flattened in document order. -/
def diffsFromPairs (ps : List (List String × List String)) : List Comment :=
  (ps.map (fun p => lineComments p.1 p.2)).flatten

/-- The entry point `get_diffs`: tokenize the two documents, pair the lines
with `zip` (truncating to the shorter list), and collect the per-line
comments. -/
def get_diffs (md1 md2 : String) : List Comment :=
  diffsFromPairs ((tokenize_lines md1).zip (tokenize_lines md2))

/-- Whether some contiguous token span of `toks`, joined by single spaces,
equals `s`. -/
def hasTokenSpan (toks : List String) (s : String) : Bool :=
  (List.range (toks.length + 1)).any (fun st =>
    (List.range (toks.length + 1)).any (fun len =>
      String.intercalate " " ((toks.drop st).take len) = s))

/-- The length of the seeded diagonal run of equal, non-popular tokens
ending at position `j` of `l`: the value the `find_longest_match` dynamic
program stores at the diagonal cell `(j, j)` when both sequences are `l`. -/
def drF (l : List String) : Nat → Nat
  | 0 => if l.length ≤ 0 ∨ popularTok l (l.getD 0 "") then 0 else 1
  | j + 1 => if l.length ≤ j + 1 ∨ popularTok l (l.getD (j + 1) "") then 0 else drF l j + 1

/-- Region and size constraints of a matching block of
`[alo, ahi) × [blo, bhi)`. -/
def InReg (alo ahi blo bhi : Nat) (m : Nat × Nat × Nat) : Prop :=
  alo ≤ m.1 ∧ m.1 + m.2.2 ≤ ahi ∧ blo ≤ m.2.1 ∧ m.2.1 + m.2.2 ≤ bhi ∧ 1 ≤ m.2.2

/-- Separation of consecutive matching blocks: the next block starts at or
after the end of the previous one, in both sequences. -/
def SepB (p q : Nat × Nat × Nat) : Prop :=
  p.1 + p.2.2 ≤ q.1 ∧ p.2.1 + p.2.2 ≤ q.2.1

/-- Bounds of a `find_longest_match` result relative to its region. -/
def BestB (alo ahi blo bhi : Nat) (p : Nat × Nat × Nat) : Prop :=
  alo ≤ p.1 ∧ p.1 + p.2.2 ≤ ahi ∧ blo ≤ p.2.1 ∧ p.2.1 + p.2.2 ≤ bhi

/-! ### Basic list lemmas -/

/-- A `zip` only consumes the common prefix of its arguments. -/
theorem zip_eq_zip_take_min {α β : Type} :
    ∀ (l1 : List α) (l2 : List β),
      l1.zip l2 =
        (l1.take (min l1.length l2.length)).zip (l2.take (min l1.length l2.length))
  | [], _ => by simp
  | _ :: _, [] => by simp
  | a :: l1, b :: l2 => by
    simp only [List.length_cons, Nat.succ_min_succ, List.take_succ_cons, List.zip_cons_cons]
    exact congrArg _ (zip_eq_zip_take_min l1 l2)

/-- Members of a `takeWhile` are members of the list. -/
theorem mem_of_takeWhile {α : Type} {p : α → Bool} :
    ∀ {l : List α} {a : α}, a ∈ l.takeWhile p → a ∈ l := by
  intro l
  induction l with
  | nil => intro a h; simp [List.takeWhile] at h
  | cons c rest ih =>
    intro a h
    rw [List.takeWhile_cons] at h
    by_cases hc : p c = true
    · simp [hc] at h
      rcases h with h | h
      · simp [h]
      · exact List.mem_cons_of_mem _ (ih h)
    · simp [hc] at h

/-- Zipping a list with itself pairs each element with itself. -/
theorem zip_self_eq_map {α : Type} :
    ∀ l : List α, l.zip l = l.map (fun x => (x, x))
  | [] => rfl
  | a :: l => by simp [List.zip_cons_cons, zip_self_eq_map l]

/-! ### The normalizer: `clean_markdown` (claim C6) -/

/-- A successful link match returns pieces of its input, and consumes at
least one character. -/
theorem tryLink_sound {cs text rest3 : List Char}
    (h : tryLink cs = some (text, rest3)) :
    (∀ c ∈ text, c ∈ cs) ∧ (∀ c ∈ rest3, c ∈ cs) ∧ rest3.length < cs.length := by
  match cs with
  | [] => simp [tryLink] at h
  | c0 :: rest =>
    rw [tryLink] at h
    by_cases hc : c0 = '[' ∧ rest.takeWhile (fun x => x ≠ ']') ≠ []
    · rw [if_pos hc] at h
      rcases hdrop : rest.drop (rest.takeWhile (fun x => x ≠ ']')).length with _ | ⟨d1, rest1⟩
      · rw [hdrop] at h; simp at h
      rcases rest1 with _ | ⟨d2, rest2⟩
      · rw [hdrop] at h; simp at h
      rw [hdrop] at h
      dsimp only at h
      by_cases hd : d1 = ']' ∧ d2 = '(' ∧ rest2.takeWhile (fun x => x ≠ ')') ≠ []
      · rw [if_pos hd] at h
        rcases hdrop2 : rest2.drop (rest2.takeWhile (fun x => x ≠ ')')).length with _ | ⟨e1, rest3'⟩
        · rw [hdrop2] at h; simp at h
        rw [hdrop2] at h
        dsimp only at h
        by_cases he : e1 = ')'
        · rw [if_pos he] at h
          simp only [Option.some.injEq, Prod.mk.injEq] at h
          obtain ⟨htext, hrest3⟩ := h
          subst htext
          subst hrest3
          have hr2 : ∀ c ∈ rest2, c ∈ rest := by
            intro c hcm
            have : c ∈ d1 :: d2 :: rest2 := by simp [hcm]
            rw [← hdrop] at this
            exact List.mem_of_mem_drop this
          have hr3len : rest3'.length + 1 ≤ rest2.length := by
            have := congrArg List.length hdrop2
            simp only [List.length_drop, List.length_cons] at this
            omega
          have hr2len : rest2.length + 2 ≤ rest.length := by
            have := congrArg List.length hdrop
            simp only [List.length_drop, List.length_cons] at this
            omega
          refine ⟨?_, ?_, ?_⟩
          · intro c hcm
            exact List.mem_cons_of_mem _ (mem_of_takeWhile hcm)
          · intro c hcm
            have : c ∈ e1 :: rest3' := by simp [hcm]
            rw [← hdrop2] at this
            exact List.mem_cons_of_mem _ (hr2 _ (List.mem_of_mem_drop this))
          · simp only [List.length_cons]
            omega
        · rw [if_neg he] at h; simp at h
      · rw [if_neg hd] at h; simp at h
    · rw [if_neg hc] at h; simp at h

/-- Characters of a link-replaced list all come from the input. -/
theorem linkReplaceAux_mem :
    ∀ (fuel : Nat) (cs : List Char) (c : Char), c ∈ linkReplaceAux fuel cs → c ∈ cs := by
  intro fuel
  induction fuel with
  | zero => intro cs c hc; exact hc
  | succ fuel ih =>
    intro cs c hc
    match cs with
    | [] => simp [linkReplaceAux] at hc
    | c0 :: rest =>
      rw [linkReplaceAux] at hc
      rcases htl : tryLink (c0 :: rest) with _ | ⟨text, rest3⟩
      · rw [htl] at hc
        rcases List.mem_cons.mp hc with h | h
        · simp [h]
        · exact List.mem_cons_of_mem _ (ih rest c h)
      · rw [htl] at hc
        rcases List.mem_append.mp hc with h | h
        · exact (tryLink_sound htl).1 c h
        · exact (tryLink_sound htl).2.1 c (ih rest3 c h)

/-- A position not starting with a left bracket never matches a link. -/
theorem tryLink_none_of_head {c0 : Char} (rest : List Char) (h : c0 ≠ '[') :
    tryLink (c0 :: rest) = none := by
  rw [tryLink]
  rw [if_neg]
  intro hc
  exact h hc.1

/-- Link replacement is the identity on bracket-free text. -/
theorem linkReplaceAux_no_bracket :
    ∀ (fuel : Nat) (cs : List Char), '[' ∉ cs → linkReplaceAux fuel cs = cs := by
  intro fuel
  induction fuel with
  | zero => intro cs _; rfl
  | succ fuel ih =>
    intro cs hnb
    match cs with
    | [] => rfl
    | c0 :: rest =>
      have hc0 : c0 ≠ '[' := by
        intro h; exact hnb (h ▸ List.mem_cons_self c0 rest)
      rw [linkReplaceAux, tryLink_none_of_head rest hc0]
      exact congrArg (c0 :: ·) (ih rest (fun h => hnb (List.mem_cons_of_mem _ h)))

/-- The characters of a normalized line are never special characters. -/
theorem clean_markdown_no_special (s : String) :
    ∀ c ∈ (clean_markdown s).data, isSpecialChar c = false := by
  intro c hc
  have h1 : c ∈ removeSpecial s.data := linkReplaceAux_mem _ _ _ hc
  have := List.of_mem_filter h1
  simpa using this

/-- C6 counterexample: `clean_markdown` is not idempotent; the nested link
text of this input survives one pass as a fresh link pattern that the
second pass replaces. -/
theorem c6_clean_markdown_not_idempotent :
    clean_markdown (clean_markdown "[x[y](u)](v)") ≠ clean_markdown "[x[y](u)](v)" := by
  decide

/-- C6 (amended): the normalizer is idempotent on every string whose
normalized form retains no left bracket; a second normalization strips no
further special characters and finds no link pattern to rewrite. -/
theorem c6_clean_markdown_idempotent_of_no_bracket (s : String)
    (h : '[' ∉ (clean_markdown s).data) :
    clean_markdown (clean_markdown s) = clean_markdown s := by
  have hns : removeSpecial (clean_markdown s).data = (clean_markdown s).data := by
    apply List.filter_eq_self.mpr
    intro c hc
    simpa using clean_markdown_no_special s c hc
  show (⟨linkReplace (removeSpecial (clean_markdown s).data)⟩ : String) = clean_markdown s
  rw [hns]
  rw [show linkReplace (clean_markdown s).data = (clean_markdown s).data from
    linkReplaceAux_no_bracket _ _ h]

/-- Witness for the amended C6 at a concrete already-marked-up string. -/
theorem c6_witness :
    '[' ∉ (clean_markdown "Hello *world*").data ∧
      clean_markdown (clean_markdown "Hello *world*") = clean_markdown "Hello *world*" :=
  ⟨by decide, c6_clean_markdown_idempotent_of_no_bracket "Hello *world*" (by decide)⟩

/-! ### The tokenizer (claims C7 and C10) -/

/-- C7: `get_diffs` depends on each document only through its sequence of
non-blank raw lines, so inserting or removing blank or whitespace-only
lines in either document never changes the result. -/
theorem c7_blank_line_neutrality (a a' b b' : String)
    (ha : (pySplitlines a'.data).filter (fun l => pyStrip l ≠ []) =
        (pySplitlines a.data).filter (fun l => pyStrip l ≠ []))
    (hb : (pySplitlines b'.data).filter (fun l => pyStrip l ≠ []) =
        (pySplitlines b.data).filter (fun l => pyStrip l ≠ [])) :
    get_diffs a' b' = get_diffs a b := by
  unfold get_diffs tokenize_lines
  rw [ha, hb]

/-- Witness for C7: a whitespace-only line inserted into the first
document leaves the diff of two concrete documents unchanged. -/
theorem c7_witness :
    ((pySplitlines ("x\n \ny" : String).data).filter (fun l => pyStrip l ≠ []) =
        (pySplitlines ("x\ny" : String).data).filter (fun l => pyStrip l ≠ [])) ∧
      get_diffs "x\n \ny" "z" = get_diffs "x\ny" "z" :=
  ⟨by decide, c7_blank_line_neutrality "x\n \ny" "x\ny" "z" "z" (by decide) (by decide)⟩

/-- Every word produced by the split worker is non-empty and free of
whitespace, provided the accumulator is. -/
theorem pySplitAux_sound :
    ∀ (cs acc : List Char), (∀ c ∈ acc, isPySpace c = false) →
      ∀ t ∈ pySplitAux cs acc, t ≠ [] ∧ ∀ c ∈ t, isPySpace c = false := by
  intro cs
  induction cs with
  | nil =>
    intro acc hacc t ht
    rw [pySplitAux] at ht
    by_cases hs : acc = []
    · simp [hs] at ht
    · rw [if_neg hs] at ht
      rcases List.mem_singleton.mp ht with rfl
      constructor
      · simpa using hs
      · intro c hc
        exact hacc c (List.mem_reverse.mp hc)
  | cons c0 rest ih =>
    intro acc hacc t ht
    rw [pySplitAux] at ht
    by_cases hsp : isPySpace c0 = true
    · rw [if_pos hsp] at ht
      by_cases hs : acc = []
      · rw [if_pos hs] at ht
        exact ih [] (by simp) t ht
      · rw [if_neg hs] at ht
        rcases List.mem_cons.mp ht with rfl | h
        · constructor
          · simpa using hs
          · intro c hc
            exact hacc c (List.mem_reverse.mp hc)
        · exact ih [] (by simp) t h
    · rw [if_neg hsp] at ht
      refine ih (c0 :: acc) ?_ t ht
      intro c hc
      rcases List.mem_cons.mp hc with rfl | h
      · simpa using hsp
      · exact hacc c h

/-- C10: every token of every tokenized line is a non-empty string with no
whitespace characters, and hence every in-range token of a line is distinct
from the empty string used by the renderer as the absent-context marker. -/
theorem c10_tokens_nonempty_nonspace (md : String) (line : List String)
    (hl : line ∈ tokenize_lines md) :
    (∀ t ∈ line, t ≠ "" ∧ ∀ c ∈ t.data, isPySpace c = false) ∧
      ∀ idx : Nat, idx < line.length → line.getD idx "" ≠ "" := by
  have hmain : ∀ t ∈ line, t ≠ "" ∧ ∀ c ∈ t.data, isPySpace c = false := by
    intro t ht
    obtain ⟨raw, _, hline⟩ := List.mem_map.mp hl
    rw [← hline] at ht
    obtain ⟨tl, htl, hmk⟩ := List.mem_map.mp ht
    have hsound := pySplitAux_sound _ [] (by simp) tl htl
    constructor
    · intro hcon
      rw [← hmk] at hcon
      exact hsound.1 (congrArg String.data hcon)
    · intro c hc
      rw [← hmk] at hc
      exact hsound.2 c hc
  refine ⟨hmain, ?_⟩
  intro idx hidx
  rw [List.getD_eq_getElem _ _ hidx]
  exact (hmain _ (List.getElem_mem hidx)).1

/-- Witness for C10 at a concrete document, line and token. -/
theorem c10_witness :
    ["a", "b"] ∈ tokenize_lines "a b" ∧
      ((∀ t ∈ ["a", "b"], t ≠ "" ∧ ∀ c ∈ t.data, isPySpace c = false) ∧
        ∀ idx : Nat, idx < (["a", "b"] : List String).length →
          (["a", "b"] : List String).getD idx "" ≠ "") :=
  ⟨by decide, c10_tokens_nonempty_nonspace "a b" ["a", "b"] (by decide)⟩

/-! ### The merge loop and the renderer (claims C1, C2, C4, C8) -/

/-- C1 fails on the code: on this line pair the two retained edit ops
merge into the single block with final bounds `[0, 4)`, but the block
carries the accumulated old tokens with `b` duplicated, not the literal
slice of the original tokens over those bounds. -/
theorem c1_merged_slice_double_counts :
    (mergedBlocksOf ["a", "b", "c", "d", "e"] ["X", "Y", "c", "Z", "e"]).map
        (fun b => (b.i1, b.i2, b.old, b.new)) =
      [(0, 4, ["a", "b", "b", "c", "d"], ["X", "Y", "Y", "c", "Z"])] ∧
    pySlice ["a", "b", "c", "d", "e"] 0 4 = ["a", "b", "c", "d"] ∧
    pySlice ["X", "Y", "c", "Z", "e"] 0 4 = ["X", "Y", "c", "Z"] := by
  decide

/-- C2 fails on the code: the pattern emitted for this line pair unescapes
to a string with a duplicated token, which does not occur as any contiguous
token span of the normalized original line. -/
theorem c2_pattern_not_a_token_span :
    (get_diffs "a b c d e" "X Y c Z e").map (fun c => unescape c.pattern) =
      ["a b b c d e"] ∧
    hasTokenSpan (pySplit (pyStrip (clean_markdown "a b c d e").data)) "a b b c d e" =
      false := by
  decide

/-- C4: a following op is merged into the current block exactly when it
starts within one token of the block on both sides, so two single-token
replacements one unchanged token apart give one comment while two
replacements two unchanged tokens apart give two. -/
theorem c4_merge_threshold :
    (∀ (line1 line2 : List String) (b m : EditOp),
        (mergeLoop line1 line2 b [m]).length = 1 ↔
          m.i1 ≤ b.i2 + 1 ∧ m.j1 ≤ b.j2 + 1) ∧
      (get_diffs "a b c d e" "a X c Y e").length = 1 ∧
      (get_diffs "a b c d e f" "a X c d Y f").length = 2 := by
  refine ⟨fun line1 line2 b m => ?_, by decide, by decide⟩
  by_cases h : m.i1 ≤ b.i2 + 1 ∧ m.j1 ≤ b.j2 + 1
  · simp [mergeLoop, h]
  · simp [mergeLoop, h]

/-- C8 (Scenario B): the two replacements merge across the single
unchanged token `c`, producing exactly one comment with the expected
pattern and suggestion. -/
theorem c8_scenario_b :
    get_diffs "a b c d e" "a X c Y e" =
      [{ pattern := reEscape "a b c d e",
         comment := "Consider changing \x27b c d\x27 to \x27X c Y\x27" }] ∧
    unescape (reEscape "a b c d e") = "a b c d e" := by
  decide

/-! ### Truncation to the shorter document (claim C5) -/

/-- C5: `get_diffs` compares exactly the line pairs of the common prefix
of the two tokenized documents and ignores trailing lines of the longer
one; in the concrete instance three non-blank original lines against two
non-blank updated lines yield a comparison of the first two pairs only,
with no failure. -/
theorem c5_truncates_to_shorter :
    (∀ md1 md2 : String,
        get_diffs md1 md2 =
          diffsFromPairs
            (((tokenize_lines md1).take
                (min (tokenize_lines md1).length (tokenize_lines md2).length)).zip
              ((tokenize_lines md2).take
                (min (tokenize_lines md1).length (tokenize_lines md2).length)))) ∧
      (tokenize_lines "a\nb\nc").length = 3 ∧
      (tokenize_lines "a\nX").length = 2 ∧
      get_diffs "a\nb\nc" "a\nX" =
        [{ pattern := "b", comment := "Consider changing \x27b\x27 to \x27X\x27" }] := by
  refine ⟨fun md1 md2 => ?_, by decide, by decide, by decide⟩
  unfold get_diffs
  exact congrArg diffsFromPairs (zip_eq_zip_take_min _ _)

/-! ### Bounds of the aligner dynamic program -/

/-- Unfolding of one inner-loop step (the `let` made explicit). -/
theorem innerLoop_cons (j2len : Nat → Nat) (blo bhi i j : Nat) (rest : List Nat)
    (st : (Nat → Nat) × (Nat × Nat × Nat)) :
    innerLoop j2len blo bhi i (j :: rest) st =
      if j < blo then innerLoop j2len blo bhi i rest st
      else if bhi ≤ j then st
      else
        innerLoop j2len blo bhi i rest
          (fun x => if x = j then (if j = 0 then 0 else j2len (j - 1)) + 1 else st.1 x,
           if st.2.2.2 < (if j = 0 then 0 else j2len (j - 1)) + 1 then
             (i + 1 - ((if j = 0 then 0 else j2len (j - 1)) + 1),
              j + 1 - ((if j = 0 then 0 else j2len (j - 1)) + 1),
              (if j = 0 then 0 else j2len (j - 1)) + 1)
           else st.2) := rfl

/-- One dynamic-program row keeps the `j2len` values within the streak
bounds and the running best inside the region. -/
theorem innerLoop_bounds (j2len : Nat → Nat) (alo ahi blo bhi i : Nat)
    (halo : alo ≤ i) (hi : i < ahi)
    (hf1 : ∀ x, j2len x ≤ x + 1 - blo) (hf2 : ∀ x, j2len x ≤ i - alo) :
    ∀ (rem : List Nat) (st : (Nat → Nat) × (Nat × Nat × Nat)),
      (∀ x, st.1 x ≤ x + 1 - blo) → (∀ x, st.1 x ≤ i + 1 - alo) →
      BestB alo ahi blo bhi st.2 →
      (∀ x, (innerLoop j2len blo bhi i rem st).1 x ≤ x + 1 - blo) ∧
        (∀ x, (innerLoop j2len blo bhi i rem st).1 x ≤ i + 1 - alo) ∧
        BestB alo ahi blo bhi (innerLoop j2len blo bhi i rem st).2 := by
  intro rem
  induction rem with
  | nil => intro st h1 h2 h3; exact ⟨h1, h2, h3⟩
  | cons j rest ih =>
    intro st h1 h2 h3
    rw [innerLoop_cons]
    by_cases hjlo : j < blo
    · rw [if_pos hjlo]
      exact ih st h1 h2 h3
    · rw [if_neg hjlo]
      by_cases hjhi : bhi ≤ j
      · rw [if_pos hjhi]
        exact ⟨h1, h2, h3⟩
      · rw [if_neg hjhi]
        have hjlo' : blo ≤ j := Nat.le_of_not_lt hjlo
        have hjhi' : j < bhi := Nat.lt_of_not_le hjhi
        have hk1 : (if j = 0 then 0 else j2len (j - 1)) + 1 ≤ j + 1 - blo := by
          by_cases hj0 : j = 0
          · subst hj0; simp; omega
          · rw [if_neg hj0]; have := hf1 (j - 1); omega
        have hk2 : (if j = 0 then 0 else j2len (j - 1)) + 1 ≤ i + 1 - alo := by
          by_cases hj0 : j = 0
          · subst hj0; simp; omega
          · rw [if_neg hj0]; have := hf2 (j - 1); omega
        refine ih _ ?_ ?_ ?_
        · intro x
          by_cases hx : x = j
          · subst hx; simpa using hk1
          · simpa [hx] using h1 x
        · intro x
          by_cases hx : x = j
          · subst hx; simpa using hk2
          · simpa [hx] using h2 x
        · by_cases hlt : st.2.2.2 < (if j = 0 then 0 else j2len (j - 1)) + 1
          · rw [if_pos hlt]
            unfold BestB
            refine ⟨?_, ?_, ?_, ?_⟩ <;> simp only <;> omega
          · rw [if_neg hlt]; exact h3

/-- The whole dynamic program keeps the best match inside the region. -/
theorem flmLoop_bounds (a : List String) (b2j : String → List Nat)
    (alo ahi blo bhi : Nat) :
    ∀ (m i0 : Nat) (st : (Nat → Nat) × (Nat × Nat × Nat)),
      alo ≤ i0 → i0 + m ≤ ahi →
      (∀ x, st.1 x ≤ x + 1 - blo) → (∀ x, st.1 x ≤ i0 - alo) →
      BestB alo ahi blo bhi st.2 →
      BestB alo ahi blo bhi (flmLoop a b2j blo bhi (List.range' i0 m) st) := by
  intro m
  induction m with
  | zero => intro i0 st _ _ _ _ hb; exact hb
  | succ m ih =>
    intro i0 st halo hm h1 h2 hb
    rw [show List.range' i0 (m + 1) = i0 :: List.range' (i0 + 1) m from rfl, flmLoop]
    have hi0 : i0 < ahi := by omega
    have hinner := innerLoop_bounds st.1 alo ahi blo bhi i0 halo hi0 h1 h2
      (b2j (a.getD i0 "")) (fun _ => 0, st.2) (fun x => Nat.zero_le _)
      (fun x => Nat.zero_le _) hb
    refine ih (i0 + 1) _ (by omega) (by omega) hinner.1 ?_ hinner.2.2
    intro x
    have := hinner.2.1 x
    omega

/-- The leftward extension keeps the match inside the region. -/
theorem extLeftAux_bounds (a b : List String) (alo ahi blo bhi : Nat) :
    ∀ (fuel : Nat) (p : Nat × Nat × Nat), BestB alo ahi blo bhi p →
      BestB alo ahi blo bhi (extLeftAux a b alo blo fuel p) := by
  intro fuel
  induction fuel with
  | zero => intro p hp; exact hp
  | succ fuel ih =>
    intro p hp
    obtain ⟨bi, bj, bs⟩ := p
    rw [extLeftAux]
    by_cases h : alo < bi ∧ blo < bj ∧ a.getD (bi - 1) "" = b.getD (bj - 1) ""
    · rw [if_pos h]
      refine ih _ ?_
      obtain ⟨hp1, hp2, hp3, hp4⟩ := hp
      obtain ⟨hc1, hc2, _⟩ := h
      simp only [BestB] at hp1 hp2 hp3 hp4 ⊢
      refine ⟨by omega, by omega, by omega, by omega⟩
    · rw [if_neg h]; exact hp

/-- The rightward extension keeps the match inside the region. -/
theorem extRightAux_bounds (a b : List String) (alo ahi blo bhi : Nat) :
    ∀ (fuel : Nat) (p : Nat × Nat × Nat), BestB alo ahi blo bhi p →
      BestB alo ahi blo bhi (extRightAux a b ahi bhi fuel p) := by
  intro fuel
  induction fuel with
  | zero => intro p hp; exact hp
  | succ fuel ih =>
    intro p hp
    obtain ⟨bi, bj, bs⟩ := p
    rw [extRightAux]
    by_cases h : bi + bs < ahi ∧ bj + bs < bhi ∧
        a.getD (bi + bs) "" = b.getD (bj + bs) ""
    · rw [if_pos h]
      refine ih _ ?_
      obtain ⟨hp1, hp2, hp3, hp4⟩ := hp
      obtain ⟨hc1, hc2, _⟩ := h
      simp only [BestB] at hp1 hp2 hp3 hp4 ⊢
      refine ⟨by omega, by omega, by omega, by omega⟩
    · rw [if_neg h]; exact hp

/-- Every match returned by `find_longest_match` lies inside its region. -/
theorem flm_bounds (a b : List String) (b2j : String → List Nat)
    (alo ahi blo bhi : Nat) (h1 : alo ≤ ahi) (h2 : blo ≤ bhi) :
    BestB alo ahi blo bhi (find_longest_match a b b2j alo ahi blo bhi) := by
  unfold find_longest_match extRight extLeft
  apply extRightAux_bounds
  apply extLeftAux_bounds
  have h0 : BestB alo ahi blo bhi (alo, blo, 0) := by
    refine ⟨le_rfl, ?_, le_rfl, ?_⟩ <;> simp only <;> omega
  exact flmLoop_bounds a b2j alo ahi blo bhi (ahi - alo) alo _ le_rfl (by omega)
    (fun x => Nat.zero_le _) (fun x => Nat.zero_le _) h0

/-! ### Structure of the matching blocks -/

/-- Unfolding of one `matching_blocks_aux` step (the `let` made explicit). -/
theorem mba_succ (a b : List String) (b2j : String → List Nat)
    (fuel alo ahi blo bhi : Nat) :
    matching_blocks_aux a b b2j (fuel + 1) alo ahi blo bhi =
      if (find_longest_match a b b2j alo ahi blo bhi).2.2 = 0 then []
      else
        (if alo < (find_longest_match a b b2j alo ahi blo bhi).1 ∧
            blo < (find_longest_match a b b2j alo ahi blo bhi).2.1 then
          matching_blocks_aux a b b2j fuel alo
            (find_longest_match a b b2j alo ahi blo bhi).1 blo
            (find_longest_match a b b2j alo ahi blo bhi).2.1
        else []) ++
        (find_longest_match a b b2j alo ahi blo bhi) ::
        (if (find_longest_match a b b2j alo ahi blo bhi).1 +
              (find_longest_match a b b2j alo ahi blo bhi).2.2 < ahi ∧
            (find_longest_match a b b2j alo ahi blo bhi).2.1 +
              (find_longest_match a b b2j alo ahi blo bhi).2.2 < bhi then
          matching_blocks_aux a b b2j fuel
            ((find_longest_match a b b2j alo ahi blo bhi).1 +
              (find_longest_match a b b2j alo ahi blo bhi).2.2) ahi
            ((find_longest_match a b b2j alo ahi blo bhi).2.1 +
              (find_longest_match a b b2j alo ahi blo bhi).2.2) bhi
        else []) := rfl

/-- The recursive matcher produces blocks that lie inside the region, have
positive size, and are listed in separated (non-overlapping, ordered)
fashion on both sides. -/
theorem mba_spec (a b : List String) (b2j : String → List Nat) :
    ∀ (fuel alo ahi blo bhi : Nat), alo ≤ ahi → blo ≤ bhi →
      (∀ m ∈ matching_blocks_aux a b b2j fuel alo ahi blo bhi,
          InReg alo ahi blo bhi m) ∧
        (matching_blocks_aux a b b2j fuel alo ahi blo bhi).Chain' SepB := by
  intro fuel
  induction fuel with
  | zero =>
    intro alo ahi blo bhi _ _
    constructor
    · intro m hm; simp [matching_blocks_aux] at hm
    · simp [matching_blocks_aux]
  | succ fuel ih =>
    intro alo ahi blo bhi h1 h2
    rw [mba_succ]
    have hM := flm_bounds a b b2j alo ahi blo bhi h1 h2
    set M := find_longest_match a b b2j alo ahi blo bhi with hMdef
    obtain ⟨hM1, hM2, hM3, hM4⟩ := hM
    by_cases hk : M.2.2 = 0
    · rw [if_pos hk]
      exact ⟨by intro m hm; simp at hm, by simp⟩
    · rw [if_neg hk]
      have hk1 : 1 ≤ M.2.2 := Nat.one_le_iff_ne_zero.mpr hk
      have hL : (∀ x ∈ (if alo < M.1 ∧ blo < M.2.1 then
            matching_blocks_aux a b b2j fuel alo M.1 blo M.2.1 else []),
              InReg alo M.1 blo M.2.1 x) ∧
          (if alo < M.1 ∧ blo < M.2.1 then
            matching_blocks_aux a b b2j fuel alo M.1 blo M.2.1 else []).Chain' SepB := by
        by_cases hg : alo < M.1 ∧ blo < M.2.1
        · rw [if_pos hg]
          exact ih alo M.1 blo M.2.1 (Nat.le_of_lt hg.1) (Nat.le_of_lt hg.2)
        · rw [if_neg hg]
          exact ⟨by intro x hx; simp at hx, by simp⟩
      have hR : (∀ x ∈ (if M.1 + M.2.2 < ahi ∧ M.2.1 + M.2.2 < bhi then
            matching_blocks_aux a b b2j fuel (M.1 + M.2.2) ahi (M.2.1 + M.2.2) bhi
          else []), InReg (M.1 + M.2.2) ahi (M.2.1 + M.2.2) bhi x) ∧
          (if M.1 + M.2.2 < ahi ∧ M.2.1 + M.2.2 < bhi then
            matching_blocks_aux a b b2j fuel (M.1 + M.2.2) ahi (M.2.1 + M.2.2) bhi
          else []).Chain' SepB := by
        by_cases hg : M.1 + M.2.2 < ahi ∧ M.2.1 + M.2.2 < bhi
        · rw [if_pos hg]
          exact ih (M.1 + M.2.2) ahi (M.2.1 + M.2.2) bhi (Nat.le_of_lt hg.1)
            (Nat.le_of_lt hg.2)
        · rw [if_neg hg]
          exact ⟨by intro x hx; simp at hx, by simp⟩
      have hLm : ∀ x ∈ (if alo < M.1 ∧ blo < M.2.1 then
          matching_blocks_aux a b b2j fuel alo M.1 blo M.2.1 else []),
          InReg alo ahi blo bhi x ∧ SepB x M := by
        intro x hx
        have := hL.1 x hx
        obtain ⟨hx1, hx2, hx3, hx4, hx5⟩ := this
        exact ⟨⟨hx1, by omega, hx3, by omega, hx5⟩, ⟨by omega, by omega⟩⟩
      have hRm : ∀ x ∈ (if M.1 + M.2.2 < ahi ∧ M.2.1 + M.2.2 < bhi then
          matching_blocks_aux a b b2j fuel (M.1 + M.2.2) ahi (M.2.1 + M.2.2) bhi
          else []), InReg alo ahi blo bhi x ∧ SepB M x := by
        intro x hx
        have := hR.1 x hx
        obtain ⟨hx1, hx2, hx3, hx4, hx5⟩ := this
        exact ⟨⟨by omega, hx2, by omega, hx4, hx5⟩, ⟨by omega, by omega⟩⟩
      constructor
      · intro x hx
        rcases List.mem_append.mp hx with hxL | hxR
        · exact (hLm x hxL).1
        · rcases List.mem_cons.mp hxR with rfl | hxR'
          · exact ⟨hM1, hM2, hM3, hM4, hk1⟩
          · exact (hRm x hxR').1
      · refine List.Chain'.append hL.2 ?_ ?_
        · refine List.chain'_cons'.mpr ⟨?_, hR.2⟩
          intro y hy
          exact (hRm y (List.mem_of_mem_head? hy)).2
        · intro x hx y hy
          have hxL := List.mem_of_mem_getLast? hx
          have hyM : M = y := by simpa using hy
          subst hyM
          exact (hLm x hxL).2

/-- Collapsing adjacent matches preserves the separated structure: every
emitted block has positive size and ends inside the sequences, the blocks
remain separated in order, and the first emitted block starts no earlier
than the incoming state. -/
theorem collapse_spec (la lb : Nat) :
    ∀ (l : List (Nat × Nat × Nat)) (s : Nat × Nat × Nat),
      (∀ m ∈ l, InReg 0 la 0 lb m) →
      (s :: l).Chain' SepB →
      s.1 + s.2.2 ≤ la → s.2.1 + s.2.2 ≤ lb →
      (∀ m ∈ collapseAux s l,
          1 ≤ m.2.2 ∧ m.1 + m.2.2 ≤ la ∧ m.2.1 + m.2.2 ≤ lb) ∧
        (collapseAux s l).Chain' SepB ∧
        (∀ x ∈ (collapseAux s l).head?, s.1 ≤ x.1 ∧ s.2.1 ≤ x.2.1) := by
  intro l
  induction l with
  | nil =>
    intro s _ _ hsla hslb
    rw [collapseAux]
    by_cases hz : s.2.2 ≠ 0
    · rw [if_pos hz]
      refine ⟨?_, List.chain'_singleton s, ?_⟩
      · intro m hm
        rcases List.mem_singleton.mp hm with rfl
        exact ⟨Nat.one_le_iff_ne_zero.mpr hz, hsla, hslb⟩
      · intro x hx
        rcases (by simpa using hx : s = x) with rfl
        exact ⟨le_rfl, le_rfl⟩
    · rw [if_neg hz]
      exact ⟨by intro m hm; simp at hm, by simp, by intro x hx; simp at hx⟩
  | cons m rest ih =>
    intro s hmem hchain hsla hslb
    have hsm : SepB s m := (List.chain'_cons.mp hchain).1
    have hmrest : (m :: rest).Chain' SepB := (List.chain'_cons.mp hchain).2
    have hmreg : InReg 0 la 0 lb m := hmem m (List.mem_cons_self m rest)
    obtain ⟨_, hm2, _, hm4, hm5⟩ := hmreg
    rw [collapseAux]
    by_cases hadj : s.1 + s.2.2 = m.1 ∧ s.2.1 + s.2.2 = m.2.1
    · rw [if_pos hadj]
      have hih := ih (s.1, s.2.1, s.2.2 + m.2.2)
        (fun x hx => hmem x (List.mem_cons_of_mem _ hx))
        ?_ (by simp only; omega) (by simp only; omega)
      · refine ⟨hih.1, hih.2.1, ?_⟩
        intro x hx
        have := hih.2.2 x hx
        exact ⟨this.1, this.2⟩
      · refine List.chain'_cons'.mpr ⟨?_, (List.chain'_cons'.mp hmrest).2⟩
        intro y hy
        have hmy : SepB m y := (List.chain'_cons'.mp hmrest).1 y hy
        unfold SepB at hmy hsm
        refine ⟨?_, ?_⟩ <;> simp only <;> omega
    · rw [if_neg hadj]
      have hih := ih m (fun x hx => hmem x (List.mem_cons_of_mem _ hx)) hmrest
        (by omega) (by omega)
      by_cases hz : s.2.2 ≠ 0
      · rw [if_pos hz]
        refine ⟨?_, ?_, ?_⟩
        · intro x hx
          rcases List.mem_append.mp hx with hxs | hxr
          · rcases (by simpa using hxs : x = s) with rfl
            exact ⟨Nat.one_le_iff_ne_zero.mpr hz, hsla, hslb⟩
          · exact hih.1 x hxr
        · refine List.Chain'.append (List.chain'_singleton s) hih.2.1 ?_
          intro x hx y hy
          rcases (by simpa using hx : s = x) with rfl
          have := hih.2.2 y hy
          unfold SepB at hsm ⊢
          omega
        · intro x hx
          rcases (by simpa using hx : s = x) with rfl
          exact ⟨le_rfl, le_rfl⟩
      · rw [if_neg hz]
        simp only [List.nil_append]
        refine ⟨hih.1, hih.2.1, ?_⟩
        intro x hx
        have := hih.2.2 x hx
        unfold SepB at hsm
        exact ⟨by omega, by omega⟩

/-- The full matching-block list of a line pair: blocks end inside the two
sequences, successive blocks are separated on both sides, and every block
except the final sentinel has positive size. -/
theorem gmb_spec (a b : List String) :
    (∀ m ∈ get_matching_blocks a b,
        m.1 + m.2.2 ≤ a.length ∧ m.2.1 + m.2.2 ≤ b.length) ∧
      (get_matching_blocks a b).Chain' SepB ∧
      (∀ m ∈ (get_matching_blocks a b).dropLast, 1 ≤ m.2.2) := by
  have hraw := mba_spec a b (b2jOf b) (a.length + 1) 0 a.length 0 b.length
    (Nat.zero_le _) (Nat.zero_le _)
  have hchain0 : ((0, 0, 0) ::
      matching_blocks_aux a b (b2jOf b) (a.length + 1) 0 a.length 0 b.length).Chain'
        SepB := by
    refine List.chain'_cons'.mpr ⟨?_, hraw.2⟩
    intro y _
    exact ⟨Nat.zero_le _, Nat.zero_le _⟩
  have hcol := collapse_spec a.length b.length
    (matching_blocks_aux a b (b2jOf b) (a.length + 1) 0 a.length 0 b.length)
    (0, 0, 0)
    (fun m hm => by
      have := hraw.1 m hm
      obtain ⟨h1', h2', h3', h4', h5'⟩ := this
      exact ⟨h1', h2', h3', h4', h5'⟩)
    hchain0 (Nat.zero_le _) (Nat.zero_le _)
  unfold get_matching_blocks
  refine ⟨?_, ?_, ?_⟩
  · intro m hm
    rcases List.mem_append.mp hm with hmo | hms
    · exact ⟨(hcol.1 m hmo).2.1, (hcol.1 m hmo).2.2⟩
    · rcases (by simpa using hms : m = (a.length, b.length, 0)) with rfl
      exact ⟨by simp, by simp⟩
  · refine List.Chain'.append hcol.2.1 (List.chain'_singleton _) ?_
    intro x hx y hy
    rcases (by simpa using hy : (a.length, b.length, 0) = y) with rfl
    have := hcol.1 x (List.mem_of_mem_getLast? hx)
    show x.1 + x.2.2 ≤ a.length ∧ x.2.1 + x.2.2 ≤ b.length
    exact ⟨by omega, by omega⟩
  · rw [List.dropLast_concat]
    intro m hm
    exact (hcol.1 m hm).1

/-- Retained (non-`equal`) opcodes of the cursor loop: each spans a
well-formed gap at or beyond the cursor, and consecutive retained opcodes
are separated by at least one matched token on each side. -/
theorem opcodesAux_spec :
    ∀ (blocks : List (Nat × Nat × Nat)) (ic jc : Nat),
      (∀ x ∈ blocks.head?, ic ≤ x.1 ∧ jc ≤ x.2.1) →
      blocks.Chain' SepB →
      (∀ m ∈ blocks.dropLast, 1 ≤ m.2.2) →
      (∀ op ∈ (opcodesAux ic jc blocks).filter (fun op => op.1 ≠ "equal"),
          ic ≤ op.2.1 ∧ op.2.1 ≤ op.2.2.1 ∧ jc ≤ op.2.2.2.1 ∧
            op.2.2.2.1 ≤ op.2.2.2.2) ∧
        ((opcodesAux ic jc blocks).filter (fun op => op.1 ≠ "equal")).Chain'
          (fun op op' => op.2.2.1 + 1 ≤ op'.2.1 ∧ op.2.2.2.2 + 1 ≤ op'.2.2.2.1) := by
  intro blocks
  induction blocks with
  | nil =>
    intro ic jc _ _ _
    constructor
    · intro op hop; simp [opcodesAux] at hop
    · simp [opcodesAux]
  | cons m rest ih =>
    intro ic jc hhead hchain hpos
    have hm : ic ≤ m.1 ∧ jc ≤ m.2.1 := hhead m (by simp)
    have hih := ih (m.1 + m.2.2) (m.2.1 + m.2.2)
      (fun y hy => by
        have := (List.chain'_cons'.mp hchain).1 y hy
        exact ⟨this.1, this.2⟩)
      (List.chain'_cons'.mp hchain).2
      (fun x hx => by
        rcases rest with _ | ⟨r, rs⟩
        · simp at hx
        · exact hpos x (by
            rw [List.dropLast_cons₂]
            exact List.mem_cons_of_mem _ hx))
    have hmk : (opcodesAux (m.1 + m.2.2) (m.2.1 + m.2.2) rest).filter
        (fun op => op.1 ≠ "equal") ≠ [] → 1 ≤ m.2.2 := by
      intro hne
      rcases hr : rest with _ | ⟨r, rs⟩
      · subst hr; simp [opcodesAux] at hne
      · exact hpos m (by rw [hr, List.dropLast_cons₂]; simp)
    have hEO : ((if m.2.2 ≠ 0 then
          [("equal", m.1, m.1 + m.2.2, m.2.1, m.2.1 + m.2.2)] else []) ++
          opcodesAux (m.1 + m.2.2) (m.2.1 + m.2.2) rest).filter
            (fun op => op.1 ≠ "equal") =
        (opcodesAux (m.1 + m.2.2) (m.2.1 + m.2.2) rest).filter
          (fun op => op.1 ≠ "equal") := by
      rw [List.filter_append]
      by_cases hz : m.2.2 ≠ 0 <;> simp [hz]
    have hnogap : ∀ hG : (opcodesAux ic jc (m :: rest) =
          (if m.2.2 ≠ 0 then
            [("equal", m.1, m.1 + m.2.2, m.2.1, m.2.1 + m.2.2)] else []) ++
            opcodesAux (m.1 + m.2.2) (m.2.1 + m.2.2) rest),
        (∀ op ∈ (opcodesAux ic jc (m :: rest)).filter (fun op => op.1 ≠ "equal"),
            ic ≤ op.2.1 ∧ op.2.1 ≤ op.2.2.1 ∧ jc ≤ op.2.2.2.1 ∧
              op.2.2.2.1 ≤ op.2.2.2.2) ∧
          ((opcodesAux ic jc (m :: rest)).filter (fun op => op.1 ≠ "equal")).Chain'
            (fun op op' => op.2.2.1 + 1 ≤ op'.2.1 ∧ op.2.2.2.2 + 1 ≤ op'.2.2.2.1) := by
      intro hG
      rw [hG, hEO]
      constructor
      · intro op hop
        have := hih.1 op hop
        exact ⟨by omega, this.2.1, by omega, this.2.2.2⟩
      · exact hih.2
    have hgap : ∀ (t : String), t ≠ "equal" →
        ∀ hG : (opcodesAux ic jc (m :: rest) =
          (t, ic, m.1, jc, m.2.1) ::
            ((if m.2.2 ≠ 0 then
              [("equal", m.1, m.1 + m.2.2, m.2.1, m.2.1 + m.2.2)] else []) ++
              opcodesAux (m.1 + m.2.2) (m.2.1 + m.2.2) rest)),
        (∀ op ∈ (opcodesAux ic jc (m :: rest)).filter (fun op => op.1 ≠ "equal"),
            ic ≤ op.2.1 ∧ op.2.1 ≤ op.2.2.1 ∧ jc ≤ op.2.2.2.1 ∧
              op.2.2.2.1 ≤ op.2.2.2.2) ∧
          ((opcodesAux ic jc (m :: rest)).filter (fun op => op.1 ≠ "equal")).Chain'
            (fun op op' => op.2.2.1 + 1 ≤ op'.2.1 ∧ op.2.2.2.2 + 1 ≤ op'.2.2.2.1) := by
      intro t ht hG
      rw [hG, List.filter_cons_of_pos (by simpa using ht), hEO]
      constructor
      · intro op hop
        rcases List.mem_cons.mp hop with rfl | ho
        · exact ⟨le_rfl, hm.1, le_rfl, hm.2⟩
        · have := hih.1 op ho
          exact ⟨by omega, this.2.1, by omega, this.2.2.2⟩
      · refine List.chain'_cons'.mpr ⟨?_, hih.2⟩
        intro y hy
        have hyo := List.mem_of_mem_head? hy
        have hyb := hih.1 y hyo
        have hk1 : 1 ≤ m.2.2 := by
          refine hmk ?_
          intro hcon
          rw [hcon] at hyo
          simp at hyo
        show m.1 + 1 ≤ y.2.1 ∧ m.2.1 + 1 ≤ y.2.2.2.1
        exact ⟨by omega, by omega⟩
    by_cases h1 : ic < m.1 ∧ jc < m.2.1
    · exact hgap "replace" (by simp) (by rw [opcodesAux, if_pos h1]; rfl)
    · by_cases h2 : ic < m.1
      · exact hgap "delete" (by simp) (by rw [opcodesAux, if_neg h1, if_pos h2]; rfl)
      · by_cases h3 : jc < m.2.1
        · exact hgap "insert" (by simp)
            (by rw [opcodesAux, if_neg h1, if_neg h2, if_pos h3]; rfl)
        · exact hnogap (by rw [opcodesAux, if_neg h1, if_neg h2, if_neg h3]; rfl)

/-- The retained-op list is the non-`equal` filter of the opcodes, mapped
to records with their literal slices. -/
theorem editOpsOf_eq (line1 line2 : List String) :
    editOpsOf line1 line2 =
      ((get_opcodes line1 line2).filter (fun op => op.1 ≠ "equal")).map
        (fun op => ⟨op.1, op.2.1, op.2.2.1, op.2.2.2.1, op.2.2.2.2,
          pySlice line1 op.2.1 op.2.2.1, pySlice line2 op.2.2.2.1 op.2.2.2.2⟩) := by
  unfold editOpsOf
  generalize get_opcodes line1 line2 = l
  induction l with
  | nil => rfl
  | cons op rest ih =>
    rw [List.filterMap_cons, List.filter_cons]
    by_cases h : op.1 = "equal"
    · simp only [h, if_pos rfl, decide_not]
      simpa using ih
    · simp only [if_neg h]
      have hd : (decide ¬op.1 = "equal") = true := by simpa using h
      simp only [hd, if_pos, List.map_cons, ite_true]
      exact congrArg _ ih

/-- The retained edit ops of a line pair are well formed and mutually
separated by at least one unchanged token on both sides. -/
theorem editOps_sep (line1 line2 : List String) :
    (∀ op ∈ editOpsOf line1 line2, op.i1 ≤ op.i2 ∧ op.j1 ≤ op.j2) ∧
      (editOpsOf line1 line2).Chain'
        (fun p n => p.i2 + 1 ≤ n.i1 ∧ p.j2 + 1 ≤ n.j1) := by
  have hgmb := gmb_spec line1 line2
  have hops := opcodesAux_spec (get_matching_blocks line1 line2) 0 0
    (fun x _ => ⟨Nat.zero_le _, Nat.zero_le _⟩) hgmb.2.1 hgmb.2.2
  rw [editOpsOf_eq]
  constructor
  · intro op hop
    obtain ⟨raw, hraw, hmap⟩ := List.mem_map.mp hop
    have := hops.1 raw hraw
    rw [← hmap]
    exact ⟨this.2.1, this.2.2.2⟩
  · rw [List.chain'_map]
    refine hops.2.imp ?_
    intro p n h
    exact h

/-- The merge loop of `get_diffs` on separated, well-formed ops produces
blocks with ordered bounds, strictly increasing and non-overlapping
old-side ranges, and its first block keeps the starting `i1`. -/
theorem mergeLoop_spec (line1 line2 : List String) :
    ∀ (rest : List EditOp) (block : EditOp),
      block.i1 ≤ block.i2 → block.j1 ≤ block.j2 →
      (∀ op ∈ rest, op.i1 ≤ op.i2 ∧ op.j1 ≤ op.j2) →
      (∀ x ∈ rest.head?, block.i2 + 1 ≤ x.i1 ∧ block.j2 + 1 ≤ x.j1) →
      rest.Chain' (fun p n => p.i2 + 1 ≤ n.i1 ∧ p.j2 + 1 ≤ n.j1) →
      (∀ bl ∈ mergeLoop line1 line2 block rest, bl.i1 ≤ bl.i2) ∧
        (mergeLoop line1 line2 block rest).Chain'
          (fun p n => p.i1 < n.i1 ∧ p.i2 ≤ n.i1 ∧ p.i2 + 1 ≤ n.i1) ∧
        (∀ x ∈ (mergeLoop line1 line2 block rest).head?, x.i1 = block.i1) := by
  intro rest
  induction rest with
  | nil =>
    intro block hbi hbj _ _ _
    rw [mergeLoop]
    refine ⟨?_, List.chain'_singleton _, ?_⟩
    · intro bl hbl
      rcases List.mem_singleton.mp hbl with rfl
      exact hbi
    · intro x hx
      rcases (by simpa using hx : block = x) with rfl
      rfl
  | cons m rest' ih =>
    intro block hbi hbj hmem hhead hchain
    have hbm := hhead m (by simp)
    have hm := hmem m (by simp)
    have hrestmem : ∀ op ∈ rest', op.i1 ≤ op.i2 ∧ op.j1 ≤ op.j2 :=
      fun op hop => hmem op (List.mem_cons_of_mem _ hop)
    have hresthead := (List.chain'_cons'.mp hchain).1
    have hrestchain := (List.chain'_cons'.mp hchain).2
    rw [mergeLoop]
    by_cases hcond : m.i1 ≤ block.i2 + 1 ∧ m.j1 ≤ block.j2 + 1
    · rw [if_pos hcond]
      have hih := ih { block with
          i2 := max block.i2 m.i2,
          j2 := max block.j2 m.j2,
          old := block.old ++ pySlice line1 (block.i1 + 1) m.i2,
          new := block.new ++ pySlice line2 (block.j1 + 1) m.j2 }
        (by simp only; omega) (by simp only; omega) hrestmem
        (fun x hx => by
          have := hresthead x hx
          simp only
          omega)
        hrestchain
      exact ⟨hih.1, hih.2.1, hih.2.2⟩
    · rw [if_neg hcond]
      have hih := ih m hm.1 hm.2 hrestmem hresthead hrestchain
      refine ⟨?_, ?_, ?_⟩
      · intro bl hbl
        rcases List.mem_cons.mp hbl with rfl | hbl'
        · exact hbi
        · exact hih.1 bl hbl'
      · refine List.chain'_cons'.mpr ⟨?_, hih.2.1⟩
        intro y hy
        have hy1 : y.i1 = m.i1 := hih.2.2 y hy
        refine ⟨?_, ?_, ?_⟩ <;> omega
      · intro x hx
        rcases (by simpa using hx : block = x) with rfl
        rfl

/-- C9: within one line pair the merged DiffBlocks have ordered bounds and
appear in strictly increasing `i1` order with non-overlapping `[i1, i2)`
ranges; each later block even starts strictly past the previous block's
`i2`, i.e. at least two past `i2 - 1`. -/
theorem c9_blocks_ordered_disjoint (line1 line2 : List String) :
    (∀ bl ∈ mergedBlocksOf line1 line2, bl.i1 ≤ bl.i2) ∧
      (mergedBlocksOf line1 line2).Chain'
        (fun p n => p.i1 < n.i1 ∧ p.i2 ≤ n.i1 ∧ p.i2 + 1 ≤ n.i1) := by
  have hsep := editOps_sep line1 line2
  unfold mergedBlocksOf
  rcases hE : editOpsOf line1 line2 with _ | ⟨b, rest⟩
  · exact ⟨by intro bl hbl; simp at hbl, by simp⟩
  · rw [hE] at hsep
    have hb := hsep.1 b (by simp)
    have hml := mergeLoop_spec line1 line2 rest b hb.1 hb.2
      (fun op hop => hsep.1 op (List.mem_cons_of_mem _ hop))
      (List.chain'_cons'.mp hsep.2).1
      (List.chain'_cons'.mp hsep.2).2
    exact ⟨hml.1, hml.2.1⟩

/-! ### Identity of the aligner on equal sequences (claim C3) -/

/-- The diagonal run length is bounded by the position plus one. -/
theorem drF_le (l : List String) : ∀ j, drF l j ≤ j + 1 := by
  intro j
  induction j with
  | zero => rw [drF]; split <;> omega
  | succ r ih => rw [drF]; split <;> omega

/-- The run is empty at a popular or out-of-range position. -/
theorem drF_pop (l : List String) (j : Nat)
    (h : l.length ≤ j ∨ popularTok l (l.getD j "") = true) : drF l j = 0 := by
  cases j with
  | zero => rw [drF, if_pos (by simpa using h)]
  | succ r => rw [drF, if_pos (by simpa using h)]

/-- The run at an in-range, non-popular position zero is one. -/
theorem drF_zero_nonpop (l : List String) (h0 : 0 < l.length)
    (hp : popularTok l (l.getD 0 "") = false) : drF l 0 = 1 := by
  rw [drF, if_neg ?_]
  rintro (h | h)
  · omega
  · rw [hp] at h
    simp at h

/-- The run extends by one at an in-range, non-popular successor position. -/
theorem drF_succ_nonpop (l : List String) (r : Nat) (h0 : r + 1 < l.length)
    (hp : popularTok l (l.getD (r + 1) "") = false) :
    drF l (r + 1) = drF l r + 1 := by
  rw [drF, if_neg ?_]
  rintro (h | h)
  · omega
  · rw [hp] at h
    simp at h

/-- Membership in the purged position map. -/
theorem mem_b2jOf {l : List String} {s : String} {j : Nat} :
    j ∈ b2jOf l s ↔
      popularTok l s = false ∧ j < l.length ∧ l.getD j "" = s := by
  unfold b2jOf tokIdxs
  by_cases hp : popularTok l s
  · simp [hp]
  · simp only [Bool.not_eq_true] at hp
    simp [hp, List.mem_filter, List.mem_range]

/-- The position lists of `b2j` are strictly increasing. -/
theorem b2jOf_pairwise (l : List String) (s : String) :
    (b2jOf l s).Pairwise (· < ·) := by
  unfold b2jOf tokIdxs
  by_cases hp : popularTok l s
  · simp [hp]
  · rw [if_neg hp]
    exact (List.pairwise_lt_range _).filter _

/-- On identical sequences one dynamic-program row keeps the best match on
the diagonal: candidate cells never beat the diagonal run already seen
(cells left of the diagonal are dominated by the diagonal run at their
column, recorded in the best by an earlier row; cells right of it by the
diagonal cell of this row, which the ascending scan visits first), and the
new row records exactly the diagonal run at the diagonal cell. -/
theorem innerLoop_id (l : List String) (i : Nat) (f : Nat → Nat)
    (hi : i < l.length)
    (hf1 : ∀ x, f x ≤ drF l x)
    (hf2 : ∀ x, f x ≤ (if i = 0 then 0 else drF l (i - 1)))
    (hf3 : i = 0 ∨ f (i - 1) = drF l (i - 1)) :
    ∀ (rem : List Nat) (g : Nat → Nat) (best : Nat × Nat × Nat),
      rem.Pairwise (· < ·) →
      (∀ j ∈ rem, j ∈ b2jOf l (l.getD i "")) →
      best.1 = best.2.1 →
      best.2.2 ≤ l.length →
      (∀ x, x < i → drF l x ≤ best.2.2) →
      (drF l i ≤ best.2.2 ∨ i ∈ rem) →
      (∀ x, g x ≤ drF l x ∧ g x ≤ drF l i) →
      (g i = drF l i ∨ i ∈ rem) →
      ((innerLoop f 0 l.length i rem (g, best)).2.1 =
          (innerLoop f 0 l.length i rem (g, best)).2.2.1) ∧
        (innerLoop f 0 l.length i rem (g, best)).2.2.2 ≤ l.length ∧
        (∀ x, x < i + 1 → drF l x ≤ (innerLoop f 0 l.length i rem (g, best)).2.2.2) ∧
        (∀ x, (innerLoop f 0 l.length i rem (g, best)).1 x ≤ drF l x ∧
          (innerLoop f 0 l.length i rem (g, best)).1 x ≤ drF l i) ∧
        (innerLoop f 0 l.length i rem (g, best)).1 i = drF l i := by
  intro rem
  induction rem with
  | nil =>
    intro g best _ _ hdiag hbsn hdom hdomi hg hgi
    refine ⟨hdiag, hbsn, ?_, hg, ?_⟩
    · intro x hx
      rcases Nat.lt_succ_iff_lt_or_eq.mp hx with h | rfl
      · exact hdom x h
      · rcases hdomi with h | h
        · exact h
        · simp at h
    · rcases hgi with h | h
      · exact h
      · simp at h
  | cons j rem' ih =>
    intro g best hpw hmem hdiag hbsn hdom hdomi hg hgi
    obtain ⟨hpop, hjn, hjeq⟩ := mem_b2jOf.mp (hmem j (by simp))
    have hjlt := (List.pairwise_cons.mp hpw).1
    have hpw' := (List.pairwise_cons.mp hpw).2
    have hmem' : ∀ x ∈ rem', x ∈ b2jOf l (l.getD i "") :=
      fun x hx => hmem x (List.mem_cons_of_mem _ hx)
    have hpopj : popularTok l (l.getD j "") = false := by rw [hjeq]; exact hpop
    have hkj : (if j = 0 then 0 else f (j - 1)) + 1 ≤ drF l j := by
      cases j with
      | zero => rw [drF_zero_nonpop l (by omega) hpopj]; simp
      | succ r =>
        rw [drF_succ_nonpop l r hjn hpopj, if_neg (Nat.succ_ne_zero r)]
        have := hf1 r
        simp only [Nat.succ_sub_one]
        omega
    have hki : (if j = 0 then 0 else f (j - 1)) + 1 ≤ drF l i := by
      cases hic : i with
      | zero =>
        rw [drF_zero_nonpop l (by omega) (by rw [← hic]; exact hpop)]
        cases j with
        | zero => simp
        | succ r =>
          have h2 : f r ≤ 0 := by
            have := hf2 r
            rw [hic, if_pos rfl] at this
            exact this
          rw [if_neg (Nat.succ_ne_zero r)]
          simp only [Nat.succ_sub_one]
          omega
      | succ ri =>
        rw [drF_succ_nonpop l ri (by omega) (by rw [← hic]; exact hpop)]
        cases j with
        | zero =>
          rw [if_pos rfl]
          omega
        | succ r =>
          have h2 : f r ≤ drF l ri := by
            have := hf2 r
            rw [hic, if_neg (Nat.succ_ne_zero ri), Nat.succ_sub_one] at this
            exact this
          rw [if_neg (Nat.succ_ne_zero r)]
          simp only [Nat.succ_sub_one]
          omega
    rw [innerLoop_cons, if_neg (by omega), if_neg (by omega)]
    rcases Nat.lt_trichotomy j i with hji | hji | hji
    · -- the cell is left of the diagonal: dominated by an earlier row
      have hnlt : ¬ (best.2.2 < (if j = 0 then 0 else f (j - 1)) + 1) := by
        have := hdom j hji
        omega
      rw [if_neg hnlt]
      refine ih _ best hpw' hmem' hdiag hbsn hdom ?_ ?_ ?_
      · rcases hdomi with h | h
        · exact Or.inl h
        · rcases List.mem_cons.mp h with h' | h'
          · omega
          · exact Or.inr h'
      · intro x
        by_cases hx : x = j
        · subst hx
          rw [if_pos rfl]
          exact ⟨hkj, hki⟩
        · simp only [if_neg hx]
          exact hg x
      · rcases hgi with h | h
        · refine Or.inl ?_
          have hij : i ≠ j := by omega
          simp only [if_neg hij]
          exact h
        · rcases List.mem_cons.mp h with h' | h'
          · omega
          · exact Or.inr h'
    · -- the diagonal cell itself: its value is exactly the diagonal run
      subst hji
      have hK : (if j = 0 then 0 else f (j - 1)) + 1 = drF l j := by
        cases j with
        | zero => rw [drF_zero_nonpop l (by omega) hpopj]; simp
        | succ r =>
          rw [drF_succ_nonpop l r hjn hpopj]
          have hfd : f r = drF l r := by
            rcases hf3 with h0 | hfd
            · exact absurd h0 (by omega)
            · simpa using hfd
          simp only [Nat.succ_sub_one, if_neg (Nat.succ_ne_zero r)]
          omega
      by_cases hlt : best.2.2 < (if j = 0 then 0 else f (j - 1)) + 1
      · rw [if_pos hlt]
        refine ih _ _ hpw' hmem' rfl ?_ ?_ ?_ ?_ ?_
        · show (if j = 0 then 0 else f (j - 1)) + 1 ≤ l.length
          have := drF_le l j
          omega
        · intro x hx
          show drF l x ≤ (if j = 0 then 0 else f (j - 1)) + 1
          have := hdom x hx
          omega
        · refine Or.inl ?_
          show drF l j ≤ (if j = 0 then 0 else f (j - 1)) + 1
          omega
        · intro x
          by_cases hx : x = j
          · subst hx
            rw [if_pos rfl]
            omega
          · simp only [if_neg hx]
            exact hg x
        · refine Or.inl ?_
          rw [if_pos rfl]
          exact hK
      · rw [if_neg hlt]
        refine ih _ best hpw' hmem' hdiag hbsn hdom (Or.inl (by omega)) ?_ (Or.inl ?_)
        · intro x
          by_cases hx : x = j
          · subst hx
            rw [if_pos rfl]
            omega
          · simp only [if_neg hx]
            exact hg x
        · rw [if_pos rfl]
          exact hK
    · -- the cell is right of the diagonal: the diagonal cell of this row
      -- (scanned earlier) already dominates its value
      have hinotin : i ∉ j :: rem' := by
        intro h
        rcases List.mem_cons.mp h with h' | h'
        · omega
        · exact absurd (hjlt i h') (by omega)
      have hdomi' : drF l i ≤ best.2.2 := by
        rcases hdomi with h | h
        · exact h
        · exact absurd h hinotin
      have hgi' : g i = drF l i := by
        rcases hgi with h | h
        · exact h
        · exact absurd h hinotin
      have hnlt : ¬ (best.2.2 < (if j = 0 then 0 else f (j - 1)) + 1) := by omega
      rw [if_neg hnlt]
      refine ih _ best hpw' hmem' hdiag hbsn hdom (Or.inl hdomi') ?_ (Or.inl ?_)
      · intro x
        by_cases hx : x = j
        · subst hx
          rw [if_pos rfl]
          exact ⟨hkj, hki⟩
        · simp only [if_neg hx]
          exact hg x
      · have hij : i ≠ j := by omega
        simp only [if_neg hij]
        exact hgi'

/-- On identical sequences the whole dynamic program returns a best match
lying on the diagonal. -/
theorem flmLoop_id (l : List String) :
    ∀ (m i0 : Nat) (f : Nat → Nat) (best : Nat × Nat × Nat),
      i0 + m = l.length →
      (∀ x, f x ≤ drF l x) →
      (∀ x, f x ≤ (if i0 = 0 then 0 else drF l (i0 - 1))) →
      (i0 = 0 ∨ f (i0 - 1) = drF l (i0 - 1)) →
      best.1 = best.2.1 → best.2.2 ≤ l.length →
      (∀ x, x < i0 → drF l x ≤ best.2.2) →
      (flmLoop l (b2jOf l) 0 l.length (List.range' i0 m) (f, best)).1 =
        (flmLoop l (b2jOf l) 0 l.length (List.range' i0 m) (f, best)).2.1 := by
  intro m
  induction m with
  | zero =>
    intro i0 f best _ _ _ _ hdiag _ _
    exact hdiag
  | succ m ih =>
    intro i0 f best hlen hf1 hf2 hf3 hdiag hbsn hdom
    rw [show List.range' i0 (m + 1) = i0 :: List.range' (i0 + 1) m from rfl, flmLoop]
    have hi0 : i0 < l.length := by omega
    have hdomi : drF l i0 ≤ best.2.2 ∨ i0 ∈ b2jOf l (l.getD i0 "") := by
      by_cases hp : popularTok l (l.getD i0 "") = true
      · exact Or.inl (by rw [drF_pop l i0 (Or.inr hp)]; omega)
      · refine Or.inr (mem_b2jOf.mpr ⟨by simpa using hp, hi0, rfl⟩)
    have hgi : (0 : Nat) = drF l i0 ∨ i0 ∈ b2jOf l (l.getD i0 "") := by
      by_cases hp : popularTok l (l.getD i0 "") = true
      · exact Or.inl (by rw [drF_pop l i0 (Or.inr hp)])
      · refine Or.inr (mem_b2jOf.mpr ⟨by simpa using hp, hi0, rfl⟩)
    have hrow := innerLoop_id l i0 f hi0 hf1 hf2 hf3 (b2jOf l (l.getD i0 ""))
      (fun _ => 0) best (b2jOf_pairwise l _) (fun j hj => hj) hdiag hbsn hdom hdomi
      (fun x => ⟨Nat.zero_le _, Nat.zero_le _⟩) hgi
    refine ih (i0 + 1) _ _ (by omega) ?_ ?_ ?_ hrow.1 hrow.2.1 ?_
    · exact fun x => (hrow.2.2.2.1 x).1
    · intro x
      rw [if_neg (Nat.succ_ne_zero i0), Nat.succ_sub_one]
      exact (hrow.2.2.2.1 x).2
    · refine Or.inr ?_
      rw [Nat.succ_sub_one]
      exact hrow.2.2.2.2
    · intro x hx
      exact hrow.2.2.1 x hx

/-- On identical sequences the leftward extension walks a diagonal match
all the way back to the start. -/
theorem extLeftAux_diag (l : List String) :
    ∀ (d s : Nat), extLeftAux l l 0 0 d (d, d, s) = (0, 0, s + d) := by
  intro d
  induction d with
  | zero => intro s; rw [extLeftAux, Nat.add_zero]
  | succ d ih =>
    intro s
    rw [extLeftAux, if_pos ⟨Nat.succ_pos d, Nat.succ_pos d, rfl⟩]
    show extLeftAux l l 0 0 d (d + 1 - 1, d + 1 - 1, s + 1) = (0, 0, s + (d + 1))
    rw [Nat.succ_sub_one, ih (s + 1)]
    have : s + 1 + d = s + (d + 1) := by omega
    rw [this]

/-- On identical sequences the rightward extension grows a diagonal match
to the full length. -/
theorem extRightAux_diag (l : List String) :
    ∀ (fuel s : Nat), fuel = l.length - s → s ≤ l.length →
      extRightAux l l l.length l.length fuel (0, 0, s) = (0, 0, l.length) := by
  intro fuel
  induction fuel with
  | zero =>
    intro s hf hs
    have : s = l.length := by omega
    rw [extRightAux, this]
  | succ fuel ih =>
    intro s hf hs
    have hslt : s < l.length := by omega
    rw [extRightAux, if_pos ⟨by simpa using hslt, by simpa using hslt, rfl⟩]
    show extRightAux l l l.length l.length fuel (0, 0, s + 1) = (0, 0, l.length)
    exact ih (s + 1) (by omega) (by omega)

/-- On identical sequences `find_longest_match` over the whole range
returns the full-length match at the origin. -/
theorem flm_id (l : List String) :
    find_longest_match l l (b2jOf l) 0 l.length 0 l.length =
      (0, 0, l.length) := by
  unfold find_longest_match
  have hdiag := flmLoop_id l (l.length - 0) 0 (fun _ => 0) (0, 0, 0) (by omega)
    (fun x => Nat.zero_le _) (fun x => Nat.zero_le _) (Or.inl rfl) rfl
    (Nat.zero_le _) (fun x hx => by omega)
  have h0 : BestB 0 l.length 0 l.length (0, 0, 0) :=
    ⟨le_rfl, Nat.zero_le _, le_rfl, Nat.zero_le _⟩
  have hbounds := flmLoop_bounds l (b2jOf l) 0 l.length 0 l.length
    (l.length - 0) 0 (fun _ => 0, (0, 0, 0)) le_rfl (by omega)
    (fun x => Nat.zero_le _) (fun x => Nat.zero_le _) h0
  set p := flmLoop l (b2jOf l) 0 l.length (List.range' 0 (l.length - 0))
    (fun _ => 0, (0, 0, 0)) with hp
  obtain ⟨d, e, s⟩ := p
  have hde : d = e := hdiag
  subst hde
  obtain ⟨_, hds, _, _⟩ := hbounds
  have hds' : d + s ≤ l.length := hds
  have hleft : extLeft l l 0 0 (d, d, s) = (0, 0, s + d) := by
    unfold extLeft
    exact extLeftAux_diag l d s
  rw [hleft]
  unfold extRight
  exact extRightAux_diag l (l.length - (0, 0, s + d).2.2) (s + d) rfl (by omega)

/-- On an identical line pair no edit op is retained. -/
theorem editOpsOf_self (l : List String) : editOpsOf l l = [] := by
  unfold editOpsOf get_opcodes get_matching_blocks
  rw [mba_succ, flm_id]
  by_cases hn : l.length = 0
  · simp [hn, collapseAux, opcodesAux]
  · simp [hn, collapseAux, opcodesAux]

/-- An identical line pair produces no comments. -/
theorem lineComments_self (l : List String) : lineComments l l = [] := by
  unfold lineComments mergedBlocksOf
  rw [editOpsOf_self]
  rfl

/-- C3: diffing any document against itself yields no comments; every line
is paired with itself, the aligner reports a single full-length `equal`
opcode for it (or nothing for a line with no tokens), and no edit op is
retained. -/
theorem c3_identity (md : String) : get_diffs md md = [] := by
  unfold get_diffs diffsFromPairs
  rw [zip_self_eq_map, List.map_map]
  rw [List.flatten_eq_nil_iff]
  intro ls hls
  obtain ⟨x, _, hmap⟩ := List.mem_map.mp hls
  rw [← hmap]
  exact lineComments_self x
